import Mathlib

/-!
Shallow embedding of the undo-aware hierarchical data model of the yup
repository, covering `DataModelTree` (yup_ValueTree.h / yup_ValueTree.cpp /
yup_ValueTree_impl.h) and `UndoManager` (yup_UndoManager.h /
yup_UndoManager.cpp).

Modelling conventions:
* `Identifier` is a plain string (juce Identifiers compare by content).
* `var` is a closed tagged value type `Var` with decidable equality;
  a default-constructed `var` is `Var.void`.
* Heap objects (`DataObject`) live in an explicit store, addressed by `Nat`
  ids which play the role of object addresses; reference equality of
  `DataObject*` pointers is equality of ids.
* There is a single `UndoManager` instance in a system, so the
  `yup::UndoManager*` field of a node is modelled by the flag
  `undoManager : Bool` (null / the engine).
* The reversible action closures stored in the undo history capture concrete
  data (node id, key, old/new value, child id, index); they are reified by
  the inductive type `UAction`.  The weakly referenced targets of actions are
  live in every scenario considered here, so `call` never reports an action
  as invalidated and coalesced transactions are never pruned.
* C++ code paths that dereference a null pointer are modelled with
  `Except Fault`.
-/

namespace YupModel

/-- juce::Identifier, compared by content. -/
abbrev Identifier := String

/-- Closed model of juce::var: a default-constructed var is `void`. -/
inductive Var where
  | void
  | int (n : Int)
  | str (s : String)
  | boolean (b : Bool)
deriving DecidableEq, Repr

/-- DataModelTree::ListenerBase::Type. -/
inductive LType where
  | NotifyAtChildEvents
  | NotifyAtOwnEvents
deriving DecidableEq, Repr

/-- A property listener: its scope flag and its key filter
(DataModelTree::PropertyListener, fields `type` and `ids`). -/
structure PListener where
  type : LType
  ids : List Identifier
deriving DecidableEq, Repr

/-- PropertyListener::matches: an empty key-set matches every key. -/
def pMatches (l : PListener) (key : Identifier) : Bool :=
  l.ids.isEmpty || l.ids.contains key

/-- One DataModelTree::DataObject record.  `undoManager` models the
`yup::UndoManager*` member (there is one engine in a system); `parent` is the
weak back-reference; `children` holds the ids of the owned children in
order; `propListeners` models the property-listener registry. -/
structure Node where
  id : Identifier
  properties : List (Identifier × Var)
  undoManager : Bool
  children : List Nat
  parent : Option Nat
  propListeners : List PListener
deriving DecidableEq, Repr

/-- The heap of DataObject records, keyed by address. -/
abbrev Store := List (Nat × Node)

/-- Dereference an object address (first binding wins). -/
def getNode : Store → Nat → Option Node
  | [], _ => none
  | (k, nd) :: st, n => if k = n then some nd else getNode st n

/-- Update the object at an address in place. -/
def updNode : Store → Nat → (Node → Node) → Store
  | [], _, _ => []
  | (k, nd) :: st, n, f =>
      if k = n then (k, f nd) :: updNode st n f
      else (k, nd) :: updNode st n f

/-- NamedValueSet lookup: first entry with the key. -/
def nvsLookup : List (Identifier × Var) → Identifier → Option Var
  | [], _ => none
  | (k, v) :: ps, key => if k = key then some v else nvsLookup ps key

/-- NamedValueSet::operator[]: the stored value, or a void var when the key
is absent. -/
def nvsGet (ps : List (Identifier × Var)) (key : Identifier) : Var :=
  (nvsLookup ps key).getD Var.void

/-- NamedValueSet::contains. -/
def nvsContains (ps : List (Identifier × Var)) (key : Identifier) : Bool :=
  (nvsLookup ps key).isSome

/-- NamedValueSet::set: replace the value in place when the key exists,
append the pair otherwise. -/
def nvsSet : List (Identifier × Var) → Identifier → Var → List (Identifier × Var)
  | [], key, v => [(key, v)]
  | (k, w) :: ps, key, v =>
      if k = key then (k, v) :: ps else (k, w) :: nvsSet ps key v

/-- Array::indexOf on a child list: first index, or -1. -/
def listIndexOfNat : List Nat → Nat → Int
  | [], _ => -1
  | x :: xs, y =>
      if x = y then 0
      else
        let r := listIndexOfNat xs y
        if r = -1 then -1 else r + 1

/-- ReferenceCountedArray::removeObject: drop the first occurrence. -/
def listRemoveFirst : List Nat → Nat → List Nat
  | [], _ => []
  | x :: xs, y => if x = y then xs else x :: listRemoveFirst xs y

/-- Array::insert: negative indices append at the end, indices past the end
are clamped to the end. -/
def listInsertAt (l : List Nat) (i : Int) (x : Nat) : List Nat :=
  if i < 0 then l ++ [x] else l.take i.toNat ++ [x] ++ l.drop i.toNat

/-- ReferenceCountedArray::operator[]: null outside the valid range. -/
def listGetI (l : List α) (i : Int) : Option α :=
  if i < 0 then none else l.get? i.toNat

/-- ReferenceCountedArray::removeRange: both bounds are clamped to the valid
range (jlimit), then the elements in [start, end) are removed. -/
def removeRangeClamped (l : List α) (start num : Int) : List α :=
  let s := min (max start 0) (l.length : Int)
  let e := min (max (s + num) 0) (l.length : Int)
  if s < e then l.take s.toNat ++ l.drop e.toNat else l

/-- The reified reversible actions submitted to the undo engine:
the lambda of DataModelTree::Property::operator= (captures the key, the old
and the new value), the lambda of DataModelTree::addChild (captures the
child object and the index), and the lambda of DataModelTree::removeChild
(captures the child object and the index the child was found at).  The node
field of each constructor is the data object of the handle the closure is
performed on. -/
inductive UAction where
  | setProp (node : Nat) (key : Identifier) (oldValue newValue : Var)
  | addChild (node : Nat) (child : Nat) (index : Int)
  | removeChild (node : Nat) (child : Nat) (idx : Nat)
deriving DecidableEq, Repr

/-- DataObject::add: set the child's parent back-reference, hand the
parent's undo engine to the child (only the direct child, nothing
recursive), then insert it into the children list (append for index -1). -/
def dataAdd (st : Store) (parentId childId : Nat) (index : Int) : Store :=
  let parentUM :=
    match getNode st parentId with
    | some nd => nd.undoManager
    | none => false
  let st1 := updNode st childId
    (fun c => { c with parent := some parentId, undoManager := parentUM })
  updNode st1 parentId (fun p =>
    { p with children :=
        if index = -1 then p.children ++ [childId]
        else listInsertAt p.children index childId })

/-- DataObject::remove, exactly as written: the guard checks membership in
this object's children list, but the removal is performed on the CHILD's own
children list (`child->children.removeObject(child)`), so the child is never
taken out of this object's list; the child's parent and undo engine are
cleared. -/
def dataRemove (st : Store) (parentId childId : Nat) : Store × Bool :=
  match getNode st parentId with
  | none => (st, false)
  | some pd =>
    if pd.children.contains childId then
      let st1 := updNode st childId
        (fun c => { c with children := listRemoveFirst c.children childId })
      let st2 := updNode st1 childId
        (fun c => { c with parent := none, undoManager := false })
      (st2, true)
    else (st, false)

/-- ActionBase::call for the reified actions: the body of the closure built
by Property::operator=, DataModelTree::addChild and
DataModelTree::removeChild, in the given direction.  Listener notification
does not change the store and is modelled separately. -/
def applyUAction (a : UAction) (isUndo : Bool) (st : Store) : Store :=
  match a with
  | .setProp n key oldValue newValue =>
      let v := if isUndo then oldValue else newValue
      updNode st n (fun nd => { nd with properties := nvsSet nd.properties key v })
  | .addChild n c index =>
      if isUndo then (dataRemove st n c).1 else dataAdd st n c index
  | .removeChild n c idx =>
      if isUndo then dataAdd st n c (Int.ofNat idx) else (dataRemove st n c).1

/-- UndoManager::CoallascatedItem::call: child actions run in reverse
insertion order on undo and in insertion order on redo.  The reified actions
always succeed (their weakly held targets are live), so no child is pruned. -/
def coalCall (txn : List UAction) (isUndo : Bool) (st : Store) : Store :=
  (if isUndo then txn.reverse else txn).foldl (fun s a => applyUAction a isUndo s) st

/-- UndoManager::HistorySize. -/
def HistorySize : Int := 30

/-- The state of one UndoManager: committed transactions, the open
transaction being coalesced, the cursor pair, and the two mode flags. -/
structure UM where
  history : List (List UAction)
  current : List UAction
  nextUndo : Int
  nextRedo : Int
  isSynchronous : Bool
  suspended : Bool
deriving DecidableEq, Repr

/-- The state after `UndoManager um;` (the constructor calls setEnabled(true)
which allocates an empty open transaction; nextUndoAction and
nextRedoAction start at -1). -/
def UM.initial : UM :=
  { history := [], current := [], nextUndo := -1, nextRedo := -1,
    isSynchronous := false, suspended := false }

/-- UndoManager::flushCurrentAction. -/
def flushCurrentAction (um : UM) : UM × Bool :=
  if um.current.isEmpty then (um, false)
  else
    let hist1 :=
      if um.nextRedo < (um.history.length : Int) then
        removeRangeClamped um.history um.nextRedo
          ((um.history.length : Int) - um.nextRedo)
      else um.history
    let hist2 := hist1 ++ [um.current]
    let numToRemove : Int := max 0 ((hist2.length : Int) - HistorySize)
    let hist3 := if 0 < numToRemove then removeRangeClamped hist2 0 numToRemove else hist2
    ({ um with
        history := hist3,
        current := [],
        nextUndo := (hist3.length : Int) - 1,
        nextRedo := (hist3.length : Int) }, true)

/-- A whole system: the object heap plus the one undo engine. -/
structure Sys where
  store : Store
  um : UM
deriving DecidableEq, Repr

/-- UndoManager::perform: flush first in synchronous mode, run the action
forward (the reified actions report success), and append it to the open
transaction unless suspended. -/
def umPerform (a : UAction) (sys : Sys) : Sys × Bool :=
  let um0 := if sys.um.isSynchronous then (flushCurrentAction sys.um).1 else sys.um
  let st := applyUAction a false sys.store
  let um1 := if um0.suspended then um0 else { um0 with current := um0.current ++ [a] }
  ({ store := st, um := um1 }, true)

/-- UndoManager::internalUndo: flush the pending transaction, look up the
transaction at the cursor (null outside the history), run it in the given
direction and advance both cursors. -/
def internalUndo (isUndo : Bool) (sys : Sys) : Sys × Bool :=
  let um := (flushCurrentAction sys.um).1
  let idx := if isUndo then um.nextUndo else um.nextRedo
  match listGetI um.history idx with
  | some txn =>
      let st := coalCall txn isUndo sys.store
      let delta : Int := if isUndo then -1 else 1
      ({ store := st,
         um := { um with
                  nextUndo := um.nextUndo + delta,
                  nextRedo := um.nextRedo + delta } }, true)
  | none => ({ sys with um := um }, false)

/-- DataModelTree::perform: an invalid handle is a no-op; with an engine the
action is submitted there, otherwise it executes immediately (forward). -/
def treePerform (sys : Sys) (n : Nat) (a : UAction) : Sys :=
  match getNode sys.store n with
  | none => sys
  | some nd =>
      if nd.undoManager then (umPerform a sys).1
      else { sys with store := applyUAction a false sys.store }

/-- A DataModelTree handle: `none` is a default-constructed (invalid)
handle, `some n` a handle whose `data` points at object `n`. -/
abbrev Handle := Option Nat

/-- DataModelTree::addChild (state effect): when both handles are valid the
insertion closure is performed through `perform`. -/
def treeAddChild (sys : Sys) (h child : Handle) (index : Int) : Sys :=
  match h, child with
  | some n, some c => treePerform sys n (.addChild n c index)
  | _, _ => sys

/-- DataModelTree::removeChild: when both handles are valid and the child is
currently a member, the removal closure is performed; the function returns
false on every path. -/
def treeRemoveChild (sys : Sys) (h child : Handle) : Sys × Bool :=
  match h, child with
  | some n, some c =>
      (match getNode sys.store n with
       | some nd =>
          let idx := listIndexOfNat nd.children c
          if idx = -1 then (sys, false)
          else (treePerform sys n (.removeChild n c idx.toNat), false)
       | none => (sys, false))
  | _, _ => (sys, false)

/-- DataModelTree::getNumChildren. -/
def treeGetNumChildren (sys : Sys) (h : Handle) : Nat :=
  match h with
  | none => 0
  | some n =>
      match getNode sys.store n with
      | some nd => nd.children.length
      | none => 0

/-- DataModelTree::getParent: follows the weak parent reference when it is
set and still alive. -/
def treeGetParent (sys : Sys) (h : Handle) : Handle :=
  match h with
  | none => none
  | some n =>
      match getNode sys.store n with
      | none => none
      | some nd =>
          match nd.parent with
          | some p => if (getNode sys.store p).isSome then some p else none
          | none => none

/-- DataModelTree::indexOf: -1 through an invalid handle, else the index of
the child's data object in the children list. -/
def treeIndexOf (sys : Sys) (h : Handle) (child : Handle) : Int :=
  match h with
  | none => -1
  | some n =>
      match getNode sys.store n with
      | none => -1
      | some nd =>
          match child with
          | some c => listIndexOfNat nd.children c
          | none => -1

/-- A DataModelTree::Property accessor: `parent` models the pointer to the
owning handle.  `operator[]` on a handle that carries storage yields an
accessor whose parent points at that storage; on a storage-less handle it
yields a value-initialised `Property{}` whose parent pointer is null. -/
structure PropertyAcc where
  parent : Handle
  key : Identifier
deriving DecidableEq, Repr

/-- DataModelTree::operator[]. -/
def treeSubscript (h : Handle) (key : Identifier) : PropertyAcc :=
  match h with
  | some n => { parent := some n, key := key }
  | none => { parent := none, key := "" }

/-- Property::get(defaultValue): through a live parent handle the code
returns `properties[id]` (a void var when the key is absent); the supplied
default is only returned when the parent pointer is null.  The inner `none`
branch is unreachable for accessors built by `operator[]` (the handle owns
its storage). -/
def PropertyAcc.get (sys : Sys) (p : PropertyAcc) (defaultValue : Var) : Var :=
  match p.parent with
  | some n =>
      match getNode sys.store n with
      | some nd => nvsGet nd.properties p.key
      | none => Var.void
  | none => defaultValue

/-- Property::isDefined: key membership in the owning node's property map. -/
def PropertyAcc.isDefined (sys : Sys) (p : PropertyAcc) : Bool :=
  match p.parent with
  | some n =>
      match getNode sys.store n with
      | some nd => nvsContains nd.properties p.key
      | none => false
  | none => false

/-- The one modelled runtime fault: dereferencing a null pointer. -/
inductive Fault where
  | nullDeref
deriving DecidableEq, Repr

/-- Property::operator=(newValue), in source order: the first statement
evaluates `parent->data->properties[id]` to capture the old value BEFORE the
`if (parent)` guard, so a null parent pointer is dereferenced; only then is
the guarded reversible action submitted through `parent->perform`. -/
def propertyAssign (sys : Sys) (p : PropertyAcc) (newValue : Var) : Except Fault Sys :=
  match p.parent with
  | none => .error .nullDeref
  | some n =>
      match getNode sys.store n with
      | none => .error .nullDeref
      | some nd =>
          let oldValue := nvsGet nd.properties p.key
          .ok (treePerform sys n (.setProp n p.key oldValue newValue))

/-- One property write `h[key] = v` on a live handle; a faulting write
leaves the system unchanged (it never fires under the hypotheses used
below). -/
def assignStep (sys : Sys) (p : PropertyAcc) (v : Var) : Sys :=
  match propertyAssign sys p v with
  | .ok s => s
  | .error _ => sys

/-- A sequence of property writes on one node through mutable accessors. -/
def writeSeq (sys : Sys) (n : Nat) (key : Identifier) (vs : List Var) : Sys :=
  vs.foldl (fun s v => assignStep s (treeSubscript (some n) key) v) sys

/-- The timer tick (UndoManager::timerCallback) closing the coalescing
window: it flushes the open transaction. -/
def sysFlushUM (sys : Sys) : Sys :=
  { sys with um := (flushCurrentAction sys.um).1 }

/-- Flushing a sequence of committed transactions: for each one the open
transaction is filled with its actions and the tick flushes it. -/
def flushTxns (ts : List (List UAction)) (um : UM) : UM :=
  ts.foldl (fun u t => (flushCurrentAction { u with current := t }).1) um

/-- The listeners fired at one node by sendPropertyChangeMessage: a listener
fires when it is recurse-scoped or the changed tree is this very node, and
its key filter matches.  Fired listeners are identified by the node they are
registered at together with their value. -/
def firedAtNode (nd : Node) (curId vId : Nat) (key : Identifier) : List (Nat × PListener) :=
  nd.propListeners.filterMap (fun l =>
    if (l.type = LType.NotifyAtChildEvents ∨ vId = curId) ∧ pMatches l key = true
    then some (curId, l) else none)

/-- DataModelTree::sendPropertyChangeMessage: dispatch at the current node,
then walk to the parent (when the weak reference is alive) and repeat with
the same changed tree `vId`.  The fuel bounds the ancestor walk, which in
the C++ tree is finite. -/
def sendPropertyChangeFired (fuel : Nat) (st : Store) (vId curId : Nat)
    (key : Identifier) : List (Nat × PListener) :=
  match fuel with
  | 0 => []
  | fuel + 1 =>
      match getNode st curId with
      | none => []
      | some nd =>
          firedAtNode nd curId vId key ++
            (match nd.parent with
             | some p =>
                 if (getNode st p).isSome then
                   sendPropertyChangeFired fuel st vId p key
                 else []
             | none => [])

/-- The nodes visited by the upward walk (the node itself and its live
ancestors), with the same guards as sendPropertyChangeFired. -/
def parentChain (fuel : Nat) (st : Store) (n : Nat) : List Nat :=
  match fuel with
  | 0 => []
  | fuel + 1 =>
      match getNode st n with
      | none => []
      | some nd =>
          n :: (match nd.parent with
                | some p =>
                    if (getNode st p).isSome then parentChain fuel st p else []
                | none => [])

/-- The coalesced transaction built by a sequence of property writes on one
node: each write captures the previous value (the preceding write's new
value, or the initial `v0`) as its old value. -/
def mkActions (n : Nat) (key : Identifier) : Var → List Var → List UAction
  | _, [] => []
  | v0, v :: vs => .setProp n key v0 v :: mkActions n key v vs

/-- Iterated NamedValueSet::set with one key. -/
def nvsSetFold (key : Identifier) (vs : List Var) (ps : List (Identifier × Var)) :
    List (Identifier × Var) :=
  vs.foldl (fun q v => nvsSet q key v) ps

/-! ### Concrete scenario systems used by the claims -/

/-- C2 scenario: root `R` governed by the undo engine and a free-standing
node `C` with identity "Item". -/
def c2Store0 : Store :=
  [(0, { id := "R", properties := [], undoManager := true, children := [],
         parent := none, propListeners := [] }),
   (1, { id := "Item", properties := [], undoManager := false, children := [],
         parent := none, propListeners := [] })]

def c2Sys0 : Sys := { store := c2Store0, um := UM.initial }

/-- After `R.addChild(C, -1)`. -/
def c2Sys1 : Sys := treeAddChild c2Sys0 (some 0) (some 1) (-1)

/-- The coalescing window closes (timer tick): the add lands in its own
transaction. -/
def c2Sys2 : Sys := sysFlushUM c2Sys1

/-- After `C["value"] = 10` in the later transaction. -/
def c2Sys3 : Sys := assignStep c2Sys2 (treeSubscript (some 1) "value") (Var.int 10)

/-- After the first undo(). -/
def c2Sys4 : Sys := (internalUndo true c2Sys3).1

/-- After the second undo(). -/
def c2Sys5 : Sys := (internalUndo true c2Sys4).1

/-- After the first redo(). -/
def c2Sys6 : Sys := (internalUndo false c2Sys5).1

/-- After the second redo(). -/
def c2Sys7 : Sys := (internalUndo false c2Sys6).1

/-- C3 scenario: a root and a free-standing child, no undo engine
(removeChild behaves the same either way: the closure is executed
directly). -/
def c3Store0 : Store :=
  [(0, { id := "Root", properties := [], undoManager := false, children := [],
         parent := none, propListeners := [] }),
   (1, { id := "C", properties := [], undoManager := false, children := [],
         parent := none, propListeners := [] })]

def c3Sys0 : Sys := { store := c3Store0, um := UM.initial }

/-- After `h.addChild(c)` with `c` previously unattached. -/
def c3Sys1 : Sys := treeAddChild c3Sys0 (some 0) (some 1) (-1)

/-- After `h.removeChild(c)`. -/
def c3Sys2 : Sys := (treeRemoveChild c3Sys1 (some 0) (some 1)).1

/-- C4 scenario: a live node with no properties. -/
def c4Sys : Sys :=
  { store := [(0, { id := "n", properties := [], undoManager := false,
                    children := [], parent := none, propListeners := [] })],
    um := UM.initial }

/-- C5 scenario: `P` is governed by the engine; `C` and its own child `G`
are built without one, then `G` is attached under `C`, then `C` under `P`. -/
def c5Store0 : Store :=
  [(0, { id := "P", properties := [], undoManager := true, children := [],
         parent := none, propListeners := [] }),
   (1, { id := "C", properties := [], undoManager := false, children := [],
         parent := none, propListeners := [] }),
   (2, { id := "G", properties := [], undoManager := false, children := [],
         parent := none, propListeners := [] })]

def c5Sys0 : Sys := { store := c5Store0, um := UM.initial }

/-- After `C.addChild(G, -1)` (no engine yet anywhere below `P`). -/
def c5Sys1 : Sys := treeAddChild c5Sys0 (some 1) (some 2) (-1)

/-- After `P.addChild(C, -1)`: the attach is complete, nothing in flight. -/
def c5Sys2 : Sys := treeAddChild c5Sys1 (some 0) (some 1) (-1)

/-- The two-node store used as the C8 witness: a root with one own-events
and one recurse-scoped listener, and its child where the change happens. -/
def c8Store : Store :=
  [(0, { id := "root", properties := [], undoManager := false, children := [1],
         parent := none,
         propListeners := [ { type := LType.NotifyAtOwnEvents, ids := [] },
                            { type := LType.NotifyAtChildEvents, ids := [] } ] }),
   (1, { id := "kid", properties := [], undoManager := false, children := [],
         parent := some 0, propListeners := [] })]

/-! ### Basic lemmas about the store and the property map -/

theorem getNode_updNode (st : Store) (n m : Nat) (f : Node → Node) :
    getNode (updNode st n f) m = if m = n then (getNode st m).map f else getNode st m := by
  induction st with
  | nil => simp [updNode, getNode]
  | cons hd tl ih =>
      obtain ⟨k, nd⟩ := hd
      by_cases hkn : k = n
      · subst hkn
        by_cases hkm : k = m
        · subst hkm
          simp only [updNode, if_pos rfl, getNode]
          simp
        · simp only [updNode, if_pos rfl, getNode, if_neg hkm]
          exact ih
      · by_cases hkm : k = m
        · subst hkm
          simp only [updNode, if_neg hkn, getNode, if_pos rfl]
          simp
        · simp only [updNode, if_neg hkn, getNode, if_neg hkm]
          exact ih

theorem updNode_updNode (st : Store) (n : Nat) (f g : Node → Node) :
    updNode (updNode st n f) n g = updNode st n (fun x => g (f x)) := by
  induction st with
  | nil => rfl
  | cons hd tl ih =>
      obtain ⟨k, nd⟩ := hd
      by_cases hk : k = n
      · subst hk
        simp only [updNode, if_pos rfl]
        rw [ih]
        simp
      · simp only [updNode, if_neg hk]
        rw [ih]

theorem nvsLookup_set_self (ps : List (Identifier × Var)) (key : Identifier) (v : Var) :
    nvsLookup (nvsSet ps key v) key = some v := by
  induction ps with
  | nil => simp [nvsSet, nvsLookup]
  | cons hd tl ih =>
      obtain ⟨k, w⟩ := hd
      by_cases hk : k = key <;> simp [nvsSet, nvsLookup, hk, ih]

theorem nvsGet_set_self (ps : List (Identifier × Var)) (key : Identifier) (v : Var) :
    nvsGet (nvsSet ps key v) key = v := by
  simp [nvsGet, nvsLookup_set_self]

/-! ### C10: DataModelTree::removeChild always returns false -/

/-- C10: `DataModelTree::removeChild` returns false on every input — for
invalid handles, for non-members, and also when a removal action is actually
performed and recorded — so its boolean result never indicates whether a
removal happened. -/
theorem C10_removeChild_always_false (sys : Sys) (h child : Handle) :
    (treeRemoveChild sys h child).2 = false := by
  cases h with
  | none => rfl
  | some n =>
      cases child with
      | none => rfl
      | some c =>
          simp only [treeRemoveChild]
          cases getNode sys.store n with
          | none => rfl
          | some nd =>
              by_cases hidx : listIndexOfNat nd.children c = -1 <;> simp [hidx]

/-! ### C2: the add-child / set-property / undo-undo-redo-redo scenario -/

/-- C2: the concrete scenario diverges from the claim at the failing input.
After the first undo `C["value"]` is still defined (`isDefined()` is true:
the captured old value of the absent key was the empty var, which undo
stores back into the map) although its value reads as void; after the second
undo `R.getNumChildren()` is 1, not 0 (DataObject::remove removes the child
from the child's own children list, so `C` never leaves `R`'s list, only its
parent pointer is cleared); after the two redos the child has been appended
a second time (`R.getNumChildren()` is 2) while the property value 10 is
restored. -/
theorem C2_scenario_divergence :
    PropertyAcc.isDefined c2Sys4 (treeSubscript (some 1) "value") = true
    ∧ PropertyAcc.get c2Sys4 (treeSubscript (some 1) "value") Var.void = Var.void
    ∧ treeGetNumChildren c2Sys5 (some 0) = 1
    ∧ treeGetParent c2Sys5 (some 1) = none
    ∧ treeGetNumChildren c2Sys6 (some 0) = 2
    ∧ PropertyAcc.get c2Sys7 (treeSubscript (some 1) "value") Var.void = Var.int 10 := by
  decide

/-! ### C3: attach/detach postconditions of addChild / removeChild -/

/-- C3: the attach half of the postcondition holds (after addChild the
child's parent is the handle's storage and indexOf is 0), but after
removeChild the child is NOT fully detached: its parent reference is
cleared, yet it is still a member of the handle's children list
(indexOf = 0, not -1), because DataObject::remove removes the child from
the child's own children list instead of this object's list. -/
theorem C3_detach_postcondition_divergence :
    treeGetParent c3Sys1 (some 1) = some 0
    ∧ treeIndexOf c3Sys1 (some 0) (some 1) = 0
    ∧ treeGetParent c3Sys2 (some 1) = none
    ∧ treeIndexOf c3Sys2 (some 0) (some 1) = 0 := by
  decide

/-! ### C4: Property::get with a default value -/

/-- C4 counterexample: through a VALID handle with the key unset, get(5)
returns the empty var, not the supplied default 5 — refuting the claim that
the default is returned whenever the key is unset. -/
theorem C4_counterexample :
    PropertyAcc.isDefined c4Sys { parent := some 0, key := "k" } = false
    ∧ PropertyAcc.get c4Sys { parent := some 0, key := "k" } (Var.int 5) = Var.void
    ∧ Var.void ≠ Var.int 5 := by
  decide

/-- C4 (amended): get(default) returns the stored value when the key is
set; when the accessor's parent handle is null (invalid handle) it returns
the supplied default; when the key is unset on a valid handle it returns
the empty var, NOT the default. -/
theorem C4_get_default_amended (sys : Sys) (p : PropertyAcc) (d : Var) :
    (p.parent = none → PropertyAcc.get sys p d = d)
    ∧ (∀ n nd, p.parent = some n → getNode sys.store n = some nd →
        (nvsContains nd.properties p.key = true →
          PropertyAcc.get sys p d = nvsGet nd.properties p.key)
        ∧ (nvsContains nd.properties p.key = false →
          PropertyAcc.get sys p d = Var.void)) := by
  refine ⟨fun hp => by simp [PropertyAcc.get, hp], fun n nd hp hn => ⟨?_, ?_⟩⟩
  · intro _
    simp [PropertyAcc.get, hp, hn]
  · intro hc
    have hl : nvsLookup nd.properties p.key = none := by
      cases hh : nvsLookup nd.properties p.key with
      | none => rfl
      | some v => simp [nvsContains, hh] at hc
    simp [PropertyAcc.get, hp, hn, nvsGet, hl]

/-- Witness for C4_get_default_amended at a concrete input (an invalid
accessor returns the default). -/
theorem C4_get_default_amended_witness :
    PropertyAcc.get { store := [], um := UM.initial }
      { parent := none, key := "k" } (Var.int 7) = Var.int 7 :=
  (C4_get_default_amended { store := [], um := UM.initial }
      { parent := none, key := "k" } (Var.int 7)).1 rfl

/-! ### C5: undo-engine adoption on attach -/

/-- C5 counterexample: after the attach completes, the direct child `C`
references `P`'s engine but the grandchild `G` still references none, while
`G`'s parent is `C` — so adoption is not recursive and the node/parent
engine-equality invariant fails outside any in-flight operation. -/
theorem C5_counterexample :
    (getNode c5Sys2.store 1).map Node.undoManager = some true
    ∧ (getNode c5Sys2.store 2).map Node.undoManager = some false
    ∧ treeGetParent c5Sys2 (some 2) = some 1 := by
  decide

/-- C5 (amended): DataObject::add hands the parent's undo engine only to
the directly attached child (together with the parent back-reference);
descendants of the attached child keep whatever engine reference they had. -/
theorem C5_engine_adoption_direct (st : Store) (p c : Nat) (idx : Int) (pd cd : Node)
    (hp : getNode st p = some pd) (hc : getNode st c = some cd) (hpc : p ≠ c) :
    getNode (dataAdd st p c idx) c
      = some { cd with parent := some p, undoManager := pd.undoManager } := by
  have hcp : ¬(c = p) := fun h => hpc h.symm
  simp only [dataAdd, hp]
  rw [getNode_updNode, if_neg hcp, getNode_updNode, if_pos rfl, hc]
  rfl

/-- Witness for C5_engine_adoption_direct at a concrete input. -/
theorem C5_engine_adoption_direct_witness :
    getNode (dataAdd c5Store0 0 1 (-1)) 1
      = some { id := "C", properties := [], undoManager := true, children := [],
               parent := some 0, propListeners := [] } :=
  C5_engine_adoption_direct c5Store0 0 1 (-1) _ _ rfl rfl (by decide)

/-! ### C9: writing through an accessor of an invalid handle -/

/-- C9: `DataModelTree{}["key"] = 10` — Property::operator= evaluates
`parent->data->properties[id]` before its `if (parent)` guard, so the write
through the accessor of a storage-less handle dereferences the null parent
pointer instead of being a safe no-op. -/
theorem C9_invalid_handle_write_faults :
    propertyAssign { store := [], um := UM.initial }
      (treeSubscript none "key") (Var.int 10) = .error .nullDeref := by
  rfl

/-! ### C7: a new committed action discards the redo history -/

theorem removeRangeClamped_tail (l : List α) (i : Int)
    (h0 : 0 ≤ i) (h1 : i < (l.length : Int)) :
    removeRangeClamped l i ((l.length : Int) - i) = l.take i.toNat := by
  simp only [removeRangeClamped]
  have hs : min (max i 0) (l.length : Int) = i := by omega
  rw [hs]
  have he : min (max (i + ((l.length : Int) - i)) 0) (l.length : Int) = (l.length : Int) := by
    omega
  rw [he, if_pos h1]
  have hn : ((l.length : Int)).toNat = l.length := by omega
  rw [hn, List.drop_length, List.append_nil]

/-- C7: in any engine state with a non-empty redo tail (reached after one or
more undos: 0 ≤ nextRedo < history length, history within its bound) and a
non-empty open transaction (a new action was performed), flushing discards
every transaction at or beyond the redo cursor, appends the new transaction,
and resets the cursors to its end — so every previously redoable transaction
becomes unreachable. -/
theorem C7_redo_invalidation (um : UM)
    (h0 : 0 ≤ um.nextRedo) (h1 : um.nextRedo < (um.history.length : Int))
    (h2 : um.history.length ≤ 30) (h3 : um.current ≠ []) :
    ((flushCurrentAction um).1).history
      = um.history.take um.nextRedo.toNat ++ [um.current]
    ∧ ((flushCurrentAction um).1).nextRedo
      = ((um.history.take um.nextRedo.toNat ++ [um.current]).length : Int)
    ∧ ((flushCurrentAction um).1).nextUndo
      = ((um.history.take um.nextRedo.toNat ++ [um.current]).length : Int) - 1 := by
  have hne : um.current.isEmpty = false := by
    cases hcur : um.current with
    | nil => exact absurd hcur h3
    | cons a l => rfl
  have htake : (um.history.take um.nextRedo.toNat).length = um.nextRedo.toNat := by
    rw [List.length_take]
    omega
  have hlen2 : (um.history.take um.nextRedo.toNat ++ [um.current]).length
      = um.nextRedo.toNat + 1 := by
    rw [List.length_append, htake]
    rfl
  have hnum : max 0 (((um.history.take um.nextRedo.toNat ++ [um.current]).length : Int)
      - HistorySize) = 0 := by
    rw [hlen2]
    simp only [HistorySize]
    omega
  simp only [flushCurrentAction, hne, Bool.false_eq_true, if_false, if_pos h1,
    removeRangeClamped_tail um.history um.nextRedo h0 h1, hnum, lt_irrefl, if_false]
  exact ⟨trivial, trivial, trivial⟩

/-- Witness for C7_redo_invalidation: a two-transaction history fully undone
once (nextRedo = 1 after one undo from the flushed state), then a new
action is flushed; the second old transaction is discarded. -/
theorem C7_redo_invalidation_witness :
    ((flushCurrentAction
        { history := [[UAction.setProp 0 "a" Var.void (Var.int 1)],
                      [UAction.setProp 0 "a" (Var.int 1) (Var.int 2)]],
          current := [UAction.setProp 0 "b" Var.void (Var.int 3)],
          nextUndo := 0, nextRedo := 1,
          isSynchronous := false, suspended := false }).1).history
      = [[UAction.setProp 0 "a" Var.void (Var.int 1)],
         [UAction.setProp 0 "b" Var.void (Var.int 3)]] :=
  (C7_redo_invalidation _ (by decide) (by decide) (by decide) (by decide)).1

/-! ### C6: the committed history is bounded by HistorySize = 30 -/

theorem removeRangeClamped_nil (start num : Int) :
    removeRangeClamped ([] : List α) start num = [] := by
  simp only [removeRangeClamped, List.length_nil, Nat.cast_zero]
  rw [if_neg (by omega)]

theorem removeRangeClamped_front (l : List α) (num : Int) :
    removeRangeClamped l 0 num = l.drop num.toNat := by
  simp only [removeRangeClamped]
  have hs : min (max (0 : Int) 0) (l.length : Int) = 0 := by omega
  rw [hs]
  by_cases hc : (0 : Int) < min (max (0 + num) 0) (l.length : Int)
  · rw [if_pos hc]
    have he : (min (max (0 + num) 0) (l.length : Int)).toNat = min num.toNat l.length := by
      omega
    rw [he]
    simp only [Int.toNat_zero, List.take_zero, List.nil_append]
    by_cases hn : num.toNat ≤ l.length
    · rw [min_eq_left hn]
    · rw [min_eq_right (le_of_not_le hn), List.drop_length,
        List.drop_eq_nil_of_le (le_of_not_le hn)]
  · rw [if_neg hc]
    by_cases hn : num ≤ 0
    · have : num.toNat = 0 := by omega
      rw [this, List.drop_zero]
    · have hl : l.length = 0 := by omega
      rw [List.length_eq_zero.mp hl]
      simp

/-- One flush with the open transaction holding `t`, from a state whose redo
cursor sits at the end of the history (no pending redo): nothing is removed
from the back, `t` is appended, and the front is trimmed to the bound. -/
theorem flush_step (H : List (List UAction)) (t : List UAction)
    (nu nr : Int) (sync susp : Bool) (ht : t ≠ [])
    (hinv : H = [] ∨ nr = (H.length : Int)) :
    (flushCurrentAction
        { history := H, current := t, nextUndo := nu, nextRedo := nr,
          isSynchronous := sync, suspended := susp }).1
      = { history := (H ++ [t]).drop (H.length + 1 - 30),
          current := [],
          nextUndo := (((H ++ [t]).drop (H.length + 1 - 30)).length : Int) - 1,
          nextRedo := (((H ++ [t]).drop (H.length + 1 - 30)).length : Int),
          isSynchronous := sync, suspended := susp } := by
  have hne : t.isEmpty = false := List.isEmpty_eq_false.mpr ht
  simp only [flushCurrentAction, hne, Bool.false_eq_true, if_false]
  have h1 : (if nr < (H.length : Int) then
        removeRangeClamped H nr ((H.length : Int) - nr)
      else H) = H := by
    rcases hinv with h | h
    · subst h
      split
      · exact removeRangeClamped_nil _ _
      · rfl
    · rw [if_neg (by omega)]
  rw [h1]
  have h3 : (if 0 < max 0 (((H ++ [t]).length : Int) - HistorySize) then
        removeRangeClamped (H ++ [t]) 0 (max 0 (((H ++ [t]).length : Int) - HistorySize))
      else H ++ [t]) = (H ++ [t]).drop (H.length + 1 - 30) := by
    by_cases hb : 0 < max 0 (((H ++ [t]).length : Int) - HistorySize)
    · rw [if_pos hb, removeRangeClamped_front]
      congr 1
      simp only [HistorySize, List.length_append, List.length_cons, List.length_nil]
      omega
    · rw [if_neg hb]
      have hz : H.length + 1 - 30 = 0 := by
        simp only [HistorySize, List.length_append, List.length_cons,
          List.length_nil] at hb
        omega
      rw [hz, List.drop_zero]
  rw [h3]

/-- Flushing a sequence of non-empty transactions from a state with no
pending redo keeps exactly the most recent 30 of (old history ++ new
transactions), trims from the front, and leaves the redo cursor at the end. -/
theorem flushTxns_spec :
    ∀ (ts : List (List UAction)) (um : UM),
      (∀ t ∈ ts, t ≠ []) →
      (um.history = [] ∨ um.nextRedo = (um.history.length : Int)) →
      um.history.length ≤ 30 →
      (flushTxns ts um).history
          = (um.history ++ ts).drop (um.history.length + ts.length - 30)
      ∧ (flushTxns ts um).history.length = min (um.history.length + ts.length) 30 := by
  intro ts
  induction ts with
  | nil =>
      intro um _ hinv hb
      simp only [flushTxns, List.foldl_nil, List.length_nil, Nat.add_zero,
        List.append_nil]
      refine ⟨?_, ?_⟩
      · have hz : um.history.length - 30 = 0 := by omega
        rw [hz, List.drop_zero]
      · omega
  | cons t ts ih =>
      intro um hne hinv hb
      obtain ⟨H, cur, nu, nr, sync, susp⟩ := um
      dsimp only at hinv hb ⊢
      have ht : t ≠ [] := hne t (by simp)
      have hstep := flush_step H t nu nr sync susp ht hinv
      have hts : flushTxns (t :: ts) ⟨H, cur, nu, nr, sync, susp⟩
          = flushTxns ts (flushCurrentAction
              { history := H, current := t, nextUndo := nu, nextRedo := nr,
                isSynchronous := sync, suspended := susp }).1 := rfl
      rw [hts, hstep]
      have hD : H.length + 1 - 30 ≤ (H ++ [t]).length := by
        simp only [List.length_append, List.length_cons, List.length_nil]
        omega
      have hlen1 : ((H ++ [t]).drop (H.length + 1 - 30)).length
          = min (H.length + 1) 30 := by
        rw [List.length_drop]
        simp only [List.length_append, List.length_cons, List.length_nil]
        omega
      have hih := ih
        { history := (H ++ [t]).drop (H.length + 1 - 30),
          current := [],
          nextUndo := (((H ++ [t]).drop (H.length + 1 - 30)).length : Int) - 1,
          nextRedo := (((H ++ [t]).drop (H.length + 1 - 30)).length : Int),
          isSynchronous := sync, suspended := susp }
        (fun x hx => hne x (by simp [hx]))
        (Or.inr rfl)
        (by simp only [hlen1]; omega)
      simp only at hih
      obtain ⟨hih1, hih2⟩ := hih
      have hl : H ++ [t] ++ ts = H ++ (t :: ts) := by
        rw [List.append_assoc, List.singleton_append]
      constructor
      · rw [hih1, ← List.drop_append_of_le_length hD, List.drop_drop, hl]
        congr 1
        simp only [hlen1, List.length_cons]
        omega
      · rw [hih2]
        simp only [hlen1, List.length_cons]
        omega

/-- C6: flushing any sequence of non-empty transactions into a fresh engine
retains only the most recent 30 of them (older ones are evicted from the
front of the history and become unreachable by undo), and the history never
exceeds 30 entries. -/
theorem C6_history_bound (ts : List (List UAction)) (hne : ∀ t ∈ ts, t ≠ []) :
    (flushTxns ts UM.initial).history = ts.drop (ts.length - 30)
    ∧ (flushTxns ts UM.initial).history.length = min ts.length 30 := by
  have h := flushTxns_spec ts UM.initial hne (Or.inl rfl) (by simp [UM.initial])
  simpa [UM.initial] using h

/-- Witness for C6_history_bound: 31 one-action transactions leave a history
of the most recent 30. -/
theorem C6_history_bound_witness :
    (flushTxns (List.replicate 31 [UAction.setProp 0 "k" Var.void (Var.int 1)])
        UM.initial).history
      = (List.replicate 31 [UAction.setProp 0 "k" Var.void (Var.int 1)]).drop
          ((List.replicate 31 [UAction.setProp 0 "k" Var.void (Var.int 1)]).length - 30)
    ∧ (flushTxns (List.replicate 31 [UAction.setProp 0 "k" Var.void (Var.int 1)])
        UM.initial).history.length
      = min (List.replicate 31 [UAction.setProp 0 "k" Var.void (Var.int 1)]).length 30 :=
  C6_history_bound _ (by decide)

/-! ### C8: listener scoping of property-change notifications -/

/-- Every fired pair of the notification walk satisfies the dispatch
condition: its listener is recurse-scoped, or it fired at the changed node
itself. -/
theorem fired_mem (key : Identifier) :
    ∀ (fuel : Nat) (st : Store) (vId cur : Nat) (q : Nat × PListener),
      q ∈ sendPropertyChangeFired fuel st vId cur key →
      (q.2.type = LType.NotifyAtChildEvents ∨ vId = q.1) := by
  intro fuel
  induction fuel with
  | zero =>
      intro st vId cur q hq
      simp [sendPropertyChangeFired] at hq
  | succ fuel ih =>
      intro st vId cur q hq
      simp only [sendPropertyChangeFired] at hq
      cases hn : getNode st cur with
      | none => simp [hn] at hq
      | some nd =>
          simp only [hn] at hq
          rcases List.mem_append.mp hq with h | h
          · simp only [firedAtNode, List.mem_filterMap] at h
            obtain ⟨l, hl, hif⟩ := h
            by_cases hc : (l.type = LType.NotifyAtChildEvents ∨ vId = cur)
                ∧ pMatches l key = true
            · rw [if_pos hc] at hif
              have hq2 : (cur, l) = q := Option.some.inj hif
              rcases hc.1 with h1 | h1
              · left
                rw [← hq2]
                exact h1
              · right
                rw [← hq2]
                exact h1
            · rw [if_neg hc] at hif
              exact absurd hif (Option.noConfusion)
          · cases hp : nd.parent with
            | none => simp [hp] at h
            | some p =>
                simp only [hp] at h
                cases hps : (getNode st p).isSome with
                | true =>
                    rw [if_pos hps] at h
                    exact ih st vId p q h
                | false =>
                    rw [if_neg (by simp [hps])] at h
                    simp at h

/-- A recurse-scoped listener whose filter matches, registered at any node
of the visited ancestor chain, is fired by the notification walk. -/
theorem chain_fired (key : Identifier) (l : PListener) (ndA : Node)
    (hT : l.type = LType.NotifyAtChildEvents) (hM : pMatches l key = true) :
    ∀ (fuel : Nat) (st : Store) (vId cur A : Nat),
      A ∈ parentChain fuel st cur →
      getNode st A = some ndA →
      l ∈ ndA.propListeners →
      (A, l) ∈ sendPropertyChangeFired fuel st vId cur key := by
  intro fuel
  induction fuel with
  | zero =>
      intro st vId cur A hA _ _
      simp [parentChain] at hA
  | succ fuel ih =>
      intro st vId cur A hA hndA hl
      simp only [parentChain] at hA
      cases hn : getNode st cur with
      | none => simp [hn] at hA
      | some nd =>
          simp only [hn] at hA
          simp only [sendPropertyChangeFired, hn]
          rcases List.mem_cons.mp hA with rfl | hrest
          · have hee : nd = ndA := by
              rw [hn] at hndA
              exact Option.some.inj hndA
            subst hee
            refine List.mem_append.mpr (Or.inl ?_)
            simp only [firedAtNode, List.mem_filterMap]
            exact ⟨l, hl, by rw [if_pos ⟨Or.inl hT, hM⟩]⟩
          · cases hp : nd.parent with
            | none => simp [hp] at hrest
            | some p =>
                simp only [hp] at hrest
                cases hps : (getNode st p).isSome with
                | true =>
                    rw [if_pos hps] at hrest
                    refine List.mem_append.mpr (Or.inr ?_)
                    show (A, l) ∈ (if (getNode st p).isSome = true then
                      sendPropertyChangeFired fuel st vId p key else [])
                    rw [if_pos hps]
                    exact ih st vId p A hrest hndA hl
                | false =>
                    rw [if_neg (by simp [hps])] at hrest
                    simp at hrest

/-- C8: for a property change at node `n`, an own-events-only listener
registered at a strict ancestor `A` of `n` (any visited node other than `n`)
never fires, while a recurse-scoped listener registered at a node of the
visited ancestor chain fires whenever its key filter matches. -/
theorem C8_listener_scoping (fuel : Nat) (st : Store) (n A : Nat)
    (key : Identifier) (nd : Node) (l : PListener)
    (hA : A ∈ parentChain fuel st n)
    (hnd : getNode st A = some nd)
    (hl : l ∈ nd.propListeners) :
    (l.type = LType.NotifyAtOwnEvents → A ≠ n →
      (A, l) ∉ sendPropertyChangeFired fuel st n n key)
    ∧ (l.type = LType.NotifyAtChildEvents → pMatches l key = true →
      (A, l) ∈ sendPropertyChangeFired fuel st n n key) := by
  constructor
  · intro hown hAn hmem
    rcases fired_mem key fuel st n n (A, l) hmem with h | h
    · rw [hown] at h
      exact LType.noConfusion h
    · exact hAn h.symm
  · intro hchild hmatch
    exact chain_fired key l nd hchild hmatch fuel st n n A hA hnd hl

/-- Witness for C8_listener_scoping: for a change on the child, the root's
recurse-scoped listener fires and its own-events listener does not. -/
theorem C8_listener_scoping_witness :
    (0 ∈ parentChain 3 c8Store 1)
    ∧ ((0, ({ type := LType.NotifyAtOwnEvents, ids := [] } : PListener))
        ∉ sendPropertyChangeFired 3 c8Store 1 1 "k")
    ∧ ((0, ({ type := LType.NotifyAtChildEvents, ids := [] } : PListener))
        ∈ sendPropertyChangeFired 3 c8Store 1 1 "k") :=
  ⟨by decide,
   (C8_listener_scoping 3 c8Store 1 0 "k"
      { id := "root", properties := [], undoManager := false, children := [1],
        parent := none,
        propListeners := [ { type := LType.NotifyAtOwnEvents, ids := [] },
                           { type := LType.NotifyAtChildEvents, ids := [] } ] }
      { type := LType.NotifyAtOwnEvents, ids := [] }
      (by decide) (by decide) (by decide)).1 rfl (by decide),
   (C8_listener_scoping 3 c8Store 1 0 "k"
      { id := "root", properties := [], undoManager := false, children := [1],
        parent := none,
        propListeners := [ { type := LType.NotifyAtOwnEvents, ids := [] },
                           { type := LType.NotifyAtChildEvents, ids := [] } ] }
      { type := LType.NotifyAtChildEvents, ids := [] }
      (by decide) (by decide) (by decide)).2 rfl rfl⟩

/-! ### C1: undo/redo round-trip for a coalesced sequence of property writes -/

theorem updNode_eq_self (st : Store) (n : Nat) (f : Node → Node)
    (hf : ∀ x, f x = x) : updNode st n f = st := by
  induction st with
  | nil => rfl
  | cons hd tl ih =>
      obtain ⟨k, nd⟩ := hd
      by_cases hk : k = n
      · simp only [updNode, if_pos hk, hf, ih]
      · simp only [updNode, if_neg hk, ih]

theorem mkActions_ne_nil (n : Nat) (key : Identifier) (v0 : Var) (vs : List Var)
    (h : vs ≠ []) : mkActions n key v0 vs ≠ [] := by
  cases vs with
  | nil => exact absurd rfl h
  | cons v vs => simp [mkActions]

theorem coalCall_cons_undo (a : UAction) (l : List UAction) (st : Store) :
    coalCall (a :: l) true st = applyUAction a true (coalCall l true st) := by
  simp [coalCall, List.reverse_cons, List.foldl_append]

theorem coalCall_cons_fwd (a : UAction) (l : List UAction) (st : Store) :
    coalCall (a :: l) false st = coalCall l false (applyUAction a false st) := rfl

theorem coal_setProps_isSome (n : Nat) (key : Identifier) :
    ∀ (vs : List Var) (v0 : Var) (b : Bool) (st : Store),
      (getNode st n).isSome = true →
      (getNode (coalCall (mkActions n key v0 vs) b st) n).isSome = true := by
  intro vs
  induction vs with
  | nil =>
      intro v0 b st h
      cases b <;> simpa [mkActions, coalCall] using h
  | cons v vs ih =>
      intro v0 b st h
      rw [show mkActions n key v0 (v :: vs)
          = .setProp n key v0 v :: mkActions n key v vs from rfl]
      cases b
      · rw [coalCall_cons_fwd]
        apply ih
        simp [applyUAction, getNode_updNode, h]
      · rw [coalCall_cons_undo]
        have h2 := ih v true st h
        simp [applyUAction, getNode_updNode, h2]

/-- Undoing the coalesced transaction of a write sequence (reverse order)
ends by restoring the first captured old value `v0` at the key. -/
theorem coal_undo_get (n : Nat) (key : Identifier) :
    ∀ (vs : List Var) (v0 : Var) (st : Store),
      (getNode st n).isSome = true → vs ≠ [] →
      ∃ nd2, getNode (coalCall (mkActions n key v0 vs) true st) n = some nd2
        ∧ nvsGet nd2.properties key = v0 := by
  intro vs
  induction vs with
  | nil =>
      intro v0 st _ hne
      exact absurd rfl hne
  | cons v vs ih =>
      intro v0 st h _
      rw [show mkActions n key v0 (v :: vs)
          = .setProp n key v0 v :: mkActions n key v vs from rfl,
        coalCall_cons_undo]
      have hin : (getNode (coalCall (mkActions n key v vs) true st) n).isSome = true :=
        coal_setProps_isSome n key vs v true st h
      obtain ⟨nd1, hnd1⟩ := Option.isSome_iff_exists.mp hin
      refine ⟨{ nd1 with properties := nvsSet nd1.properties key v0 }, ?_, ?_⟩
      · simp [applyUAction, getNode_updNode, hnd1]
      · exact nvsGet_set_self _ _ _

/-- Redoing the coalesced transaction of a write sequence (insertion order)
ends by storing the last written value at the key. -/
theorem coal_redo_get (n : Nat) (key : Identifier) :
    ∀ (vs : List Var) (v0 : Var) (st : Store),
      (getNode st n).isSome = true → vs ≠ [] →
      ∃ nd2, getNode (coalCall (mkActions n key v0 vs) false st) n = some nd2
        ∧ nvsGet nd2.properties key = (vs.getLast?).getD Var.void := by
  intro vs
  induction vs with
  | nil =>
      intro v0 st _ hne
      exact absurd rfl hne
  | cons v vs ih =>
      intro v0 st h _
      rw [show mkActions n key v0 (v :: vs)
          = .setProp n key v0 v :: mkActions n key v vs from rfl,
        coalCall_cons_fwd]
      cases vs with
      | nil =>
          obtain ⟨nd0, hnd0⟩ := Option.isSome_iff_exists.mp h
          refine ⟨{ nd0 with properties := nvsSet nd0.properties key v }, ?_, ?_⟩
          · simp [mkActions, coalCall, applyUAction, getNode_updNode, hnd0]
          · rw [List.getLast?_singleton]
            exact nvsGet_set_self _ _ _
      | cons w ws =>
          have h1 : (getNode (applyUAction (.setProp n key v0 v) false st) n).isSome
              = true := by
            simp [applyUAction, getNode_updNode, h]
          obtain ⟨nd2, hnd2, hval⟩ := ih v
            (applyUAction (.setProp n key v0 v) false st) h1 (by simp)
          refine ⟨nd2, hnd2, ?_⟩
          rw [hval, List.getLast?_cons_cons]

theorem flush_empty (um : UM) (h : um.current = []) :
    flushCurrentAction um = (um, false) := by
  simp [flushCurrentAction, h]

theorem listGetI_concat (l : List α) (x : α) :
    listGetI (l ++ [x]) (l.length : Int) = some x := by
  simp only [listGetI]
  rw [if_neg (by omega)]
  have hn : ((l.length : Int)).toNat = l.length := by omega
  rw [hn]
  exact List.get?_concat_length l x

/-- A sequence of property writes on a live engine-governed node (engine
asynchronous, not suspended) updates the property map by the iterated set
and appends the chained old/new actions to the open transaction. -/
theorem writeSeq_spec (n : Nat) (key : Identifier) :
    ∀ (vs : List Var) (sys : Sys) (nd : Node),
      getNode sys.store n = some nd →
      nd.undoManager = true →
      sys.um.isSynchronous = false →
      sys.um.suspended = false →
      writeSeq sys n key vs
        = { store := updNode sys.store n
              (fun x => { x with properties := nvsSetFold key vs x.properties }),
            um := { sys.um with
                     current := sys.um.current
                       ++ mkActions n key (nvsGet nd.properties key) vs } } := by
  intro vs
  induction vs with
  | nil =>
      intro sys nd h1 h2 h3 h4
      simp only [writeSeq, List.foldl_nil, mkActions, List.append_nil]
      rw [updNode_eq_self sys.store n
        (fun x => { x with properties := nvsSetFold key ([] : List Var) x.properties })
        (fun x => rfl)]
  | cons v vs ih =>
      intro sys nd h1 h2 h3 h4
      have hstep : assignStep sys (treeSubscript (some n) key) v
          = { store := updNode sys.store n
                (fun x => { x with properties := nvsSet x.properties key v }),
              um := { sys.um with
                       current := sys.um.current
                         ++ [UAction.setProp n key (nvsGet nd.properties key) v] } } := by
        simp only [assignStep, propertyAssign, treeSubscript, h1, treePerform, h2,
          umPerform, h3, h4, applyUAction, Bool.false_eq_true, if_false, if_true]
      have hmid : getNode (assignStep sys (treeSubscript (some n) key) v).store n
          = some { nd with properties := nvsSet nd.properties key v } := by
        rw [hstep]
        simp only [getNode_updNode, if_pos rfl, h1, Option.map_some', if_true]
      have hW := ih (assignStep sys (treeSubscript (some n) key) v)
        { nd with properties := nvsSet nd.properties key v }
        hmid (h2) (by rw [hstep]; exact h3) (by rw [hstep]; exact h4)
      rw [show writeSeq sys n key (v :: vs)
          = writeSeq (assignStep sys (treeSubscript (some n) key) v) n key vs from rfl]
      rw [hW, hstep]
      simp only [updNode_updNode, nvsGet_set_self]
      rw [show mkActions n key (nvsGet nd.properties key) (v :: vs)
          = UAction.setProp n key (nvsGet nd.properties key) v
            :: mkActions n key v vs from rfl]
      simp only [List.append_assoc, List.singleton_append]
      rfl

/-- Flushing a non-empty open transaction appends it at the end of the
history (after possibly discarding the redo tail and trimming the front)
and points the undo cursor at it. -/
theorem flush_shape (um : UM) (h : um.current ≠ []) :
    ∃ Y, (flushCurrentAction um).1
      = { history := Y ++ [um.current], current := [],
          nextUndo := (Y.length : Int), nextRedo := (Y.length : Int) + 1,
          isSynchronous := um.isSynchronous, suspended := um.suspended } := by
  obtain ⟨H, cur, nu, nr, sync, susp⟩ := um
  dsimp only at h ⊢
  have hne : cur.isEmpty = false := List.isEmpty_eq_false.mpr h
  simp only [flushCurrentAction, hne, Bool.false_eq_true, if_false]
  set X := (if nr < (H.length : Int) then
      removeRangeClamped H nr ((H.length : Int) - nr) else H) with hX
  by_cases hb : 0 < max 0 (((X ++ [cur]).length : Int) - HistorySize)
  · rw [if_pos hb, removeRangeClamped_front]
    have hkk : (max 0 (((X ++ [cur]).length : Int) - HistorySize)).toNat ≤ X.length := by
      simp only [HistorySize, List.length_append, List.length_cons, List.length_nil]
      omega
    rw [List.drop_append_of_le_length hkk]
    refine ⟨X.drop (max 0 (((X ++ [cur]).length : Int) - HistorySize)).toNat, ?_⟩
    simp only [UM.mk.injEq, List.length_append, List.length_cons, List.length_nil]
    refine ⟨trivial, trivial, by push_cast; omega, by push_cast; omega, trivial, trivial⟩
  · rw [if_neg hb]
    refine ⟨X, ?_⟩
    simp only [UM.mk.injEq, List.length_append, List.length_cons, List.length_nil]
    refine ⟨trivial, trivial, by push_cast; omega, by push_cast; omega, trivial, trivial⟩

/-- C1: for every non-empty sequence of property writes on one live node
governed by the engine — asynchronous mode, not suspended, written while a
single freshly opened transaction collects them — flushing the transaction
and then calling undo() restores the value read through the accessor to the
value it had immediately before the first write, and a subsequent redo()
restores it to the value written last. -/
theorem C1_undo_redo_roundtrip (sys : Sys) (n : Nat) (key : Identifier)
    (nd : Node) (vs : List Var)
    (h1 : getNode sys.store n = some nd)
    (h2 : nd.undoManager = true)
    (h3 : sys.um.isSynchronous = false)
    (h4 : sys.um.suspended = false)
    (h5 : sys.um.current = [])
    (h6 : vs ≠ []) :
    PropertyAcc.get ((internalUndo true (sysFlushUM (writeSeq sys n key vs))).1)
        (treeSubscript (some n) key) Var.void
      = PropertyAcc.get sys (treeSubscript (some n) key) Var.void
    ∧ PropertyAcc.get
        ((internalUndo false
            (internalUndo true (sysFlushUM (writeSeq sys n key vs))).1).1)
        (treeSubscript (some n) key) Var.void
      = (vs.getLast?).getD Var.void := by
  have hW := writeSeq_spec n key vs sys nd h1 h2 h3 h4
  rw [h5, List.nil_append] at hW
  obtain ⟨Y, hY⟩ := flush_shape
    { history := sys.um.history,
      current := mkActions n key (nvsGet nd.properties key) vs,
      nextUndo := sys.um.nextUndo, nextRedo := sys.um.nextRedo,
      isSynchronous := sys.um.isSynchronous, suspended := sys.um.suspended }
    (mkActions_ne_nil n key (nvsGet nd.properties key) vs h6)
  dsimp only at hY
  have hflush : sysFlushUM (writeSeq sys n key vs)
      = { store := updNode sys.store n
            (fun x => { x with properties := nvsSetFold key vs x.properties }),
          um := { history := Y ++ [mkActions n key (nvsGet nd.properties key) vs],
                  current := [], nextUndo := (Y.length : Int),
                  nextRedo := (Y.length : Int) + 1,
                  isSynchronous := sys.um.isSynchronous,
                  suspended := sys.um.suspended } } := by
    simp only [sysFlushUM, hW]
    rw [hY]
  have hundo : (internalUndo true (sysFlushUM (writeSeq sys n key vs))).1
      = { store := coalCall (mkActions n key (nvsGet nd.properties key) vs) true
            (updNode sys.store n
              (fun x => { x with properties := nvsSetFold key vs x.properties })),
          um := { history := Y ++ [mkActions n key (nvsGet nd.properties key) vs],
                  current := [], nextUndo := (Y.length : Int) - 1,
                  nextRedo := (Y.length : Int),
                  isSynchronous := sys.um.isSynchronous,
                  suspended := sys.um.suspended } } := by
    rw [hflush]
    simp only [internalUndo]
    rw [flush_empty _ rfl]
    simp only [if_true, Bool.false_eq_true, if_false]
    rw [listGetI_concat]
    simp only [Sys.mk.injEq, UM.mk.injEq]
    refine ⟨?_, ?_, ?_, ?_, ?_, ?_, ?_⟩ <;> first | trivial | omega
  have hredo : (internalUndo false
        (internalUndo true (sysFlushUM (writeSeq sys n key vs))).1).1
      = { store := coalCall (mkActions n key (nvsGet nd.properties key) vs) false
            (coalCall (mkActions n key (nvsGet nd.properties key) vs) true
              (updNode sys.store n
                (fun x => { x with properties := nvsSetFold key vs x.properties }))),
          um := { history := Y ++ [mkActions n key (nvsGet nd.properties key) vs],
                  current := [], nextUndo := (Y.length : Int),
                  nextRedo := (Y.length : Int) + 1,
                  isSynchronous := sys.um.isSynchronous,
                  suspended := sys.um.suspended } } := by
    rw [hundo]
    simp only [internalUndo]
    rw [flush_empty _ rfl]
    simp only [if_true, Bool.false_eq_true, if_false]
    rw [listGetI_concat]
    simp only [Sys.mk.injEq, UM.mk.injEq]
    refine ⟨?_, ?_, ?_, ?_, ?_, ?_, ?_⟩ <;> first | trivial | omega
  have hs1 : getNode (updNode sys.store n
      (fun x => { x with properties := nvsSetFold key vs x.properties })) n
      = some { nd with properties := nvsSetFold key vs nd.properties } := by
    simp only [getNode_updNode, if_pos rfl, h1, Option.map_some', if_true]
  have hsome1 : (getNode (updNode sys.store n
      (fun x => { x with properties := nvsSetFold key vs x.properties })) n).isSome
      = true := by
    rw [hs1]
    rfl
  obtain ⟨nd2, hnd2, hval2⟩ := coal_undo_get n key vs (nvsGet nd.properties key)
    (updNode sys.store n
      (fun x => { x with properties := nvsSetFold key vs x.properties })) hsome1 h6
  have hsome2 : (getNode (coalCall (mkActions n key (nvsGet nd.properties key) vs) true
      (updNode sys.store n
        (fun x => { x with properties := nvsSetFold key vs x.properties }))) n).isSome
      = true := by
    rw [hnd2]
    rfl
  obtain ⟨nd3, hnd3, hval3⟩ := coal_redo_get n key vs (nvsGet nd.properties key)
    (coalCall (mkActions n key (nvsGet nd.properties key) vs) true
      (updNode sys.store n
        (fun x => { x with properties := nvsSetFold key vs x.properties }))) hsome2 h6
  constructor
  · rw [hundo]
    simp only [PropertyAcc.get, treeSubscript, hnd2, h1]
    exact hval2
  · rw [hredo]
    simp only [PropertyAcc.get, treeSubscript, hnd3]
    exact hval3

/-- Witness for C1_undo_redo_roundtrip: two writes 1 then 2 on a fresh
engine-governed node; undo restores the void read, redo restores 2. -/
theorem C1_undo_redo_roundtrip_witness :
    PropertyAcc.get ((internalUndo true (sysFlushUM (writeSeq
        { store := [(0, { id := "n", properties := [], undoManager := true,
                          children := [], parent := none, propListeners := [] })],
          um := UM.initial } 0 "k" [Var.int 1, Var.int 2]))).1)
        (treeSubscript (some 0) "k") Var.void
      = PropertyAcc.get
        { store := [(0, { id := "n", properties := [], undoManager := true,
                          children := [], parent := none, propListeners := [] })],
          um := UM.initial } (treeSubscript (some 0) "k") Var.void
    ∧ PropertyAcc.get ((internalUndo false (internalUndo true (sysFlushUM (writeSeq
        { store := [(0, { id := "n", properties := [], undoManager := true,
                          children := [], parent := none, propListeners := [] })],
          um := UM.initial } 0 "k" [Var.int 1, Var.int 2]))).1).1)
        (treeSubscript (some 0) "k") Var.void
      = (([Var.int 1, Var.int 2].getLast?)).getD Var.void :=
  C1_undo_redo_roundtrip _ 0 "k"
    { id := "n", properties := [], undoManager := true,
      children := [], parent := none, propListeners := [] }
    [Var.int 1, Var.int 2] rfl rfl rfl rfl rfl (by decide)

end YupModel
